import Mathlib

/-!
Shallow embedding of the funnel-trends persons query
(`TestFunnelTrendsPersons` snapshot SQL): a three-step funnel over a
per-actor event stream, with a 14-day conversion window, day-granularity
entrance periods, depth selection, and a person join with
`ORDER BY created_at DESC LIMIT 101 OFFSET 0`.

Timestamps are modelled as `Nat` (seconds); SQL `NULL`-able timestamps as
`Option Nat`; the null-propagating comparisons `ifNull(less(a,b),0)` and
`ifNull(lessOrEquals(a,b),0)` as `ltOpt` / `leOpt`; the window aggregate
`min(x) OVER (PARTITION BY actor ORDER BY timestamp DESC ROWS BETWEEN
UNBOUNDED PRECEDING AND 0 PRECEDING)` as a suffix minimum over the
ascending event list (the frame in descending order is exactly the set of
rows at or after the current row).
-/

namespace FunnelTrends

/-- A raw event of one actor: `(e.event, toTimeZone(e.timestamp, 'UTC'))`. -/
structure Ev where
  name : String
  ts : Nat
deriving DecidableEq

/-- `equals(e.event, 'step one')` — the step-0 predicate. -/
def isStep0 (e : Ev) : Bool := e.name = "step one"

/-- `equals(e.event, 'step two')` — the step-1 predicate. -/
def isStep1 (e : Ev) : Bool := e.name = "step two"

/-- `equals(e.event, 'step three')` — the step-2 predicate. -/
def isStep2 (e : Ev) : Bool := e.name = "step three"

/-- One row of the innermost select: step flags and the per-event
`latest_i` columns (`if(step_i = 1, timestamp, NULL)`). -/
structure Row where
  timestamp : Nat
  step_0 : Bool
  latest_0 : Option Nat
  step_1 : Bool
  latest_1 : Option Nat
  step_2 : Bool
  latest_2 : Option Nat
deriving DecidableEq

/-- The innermost select list: tag an event with its step signals. -/
def classify (e : Ev) : Row :=
  { timestamp := e.ts
    step_0 := isStep0 e
    latest_0 := if isStep0 e then some e.ts else none
    step_1 := isStep1 e
    latest_1 := if isStep1 e then some e.ts else none
    step_2 := isStep2 e
    latest_2 := if isStep2 e then some e.ts else none }

/-- The innermost query: classify each event, keeping only rows where at
least one step signal is set (the `or(step_0 = 1, step_1 = 1, step_2 = 1)`
filter; the `in(e.event, tuple(...))` condition is equivalent to it). -/
def stage0 (events : List Ev) : List Row :=
  (events.filter (fun e => isStep0 e || isStep1 e || isStep2 e)).map classify

/-- SQL aggregate `min` over two nullable values: `NULL` is skipped. -/
def minOpt : Option Nat → Option Nat → Option Nat
  | none, b => b
  | some a, none => some a
  | some a, some b => some (min a b)

/-- SQL aggregate `min` over a list of nullable values. -/
def minOptList (l : List (Option Nat)) : Option Nat := l.foldr minOpt none

/-- `min(latest_1)` over a set of rows. -/
def minLatest1 (rows : List Row) : Option Nat := minOptList (rows.map Row.latest_1)

/-- `min(latest_2)` over a set of rows. -/
def minLatest2 (rows : List Row) : Option Nat := minOptList (rows.map Row.latest_2)

/-- First window layer: replace `latest_1` and `latest_2` at each row by
their window minimum over the frame `ORDER BY timestamp DESC ROWS BETWEEN
UNBOUNDED PRECEDING AND 0 PRECEDING`, i.e. the minimum over the current
row and all rows after it in ascending order. -/
def stage1 : List Row → List Row
  | [] => []
  | r :: rest =>
      { r with
        latest_1 := minOpt r.latest_1 (minLatest1 rest)
        latest_2 := minOpt r.latest_2 (minLatest2 rest) } :: stage1 rest

/-- `ifNull(less(a, b), 0)`: null-safe strict comparison, `false` when
either side is `NULL`. -/
def ltOpt : Option Nat → Option Nat → Bool
  | some a, some b => decide (a < b)
  | _, _ => false

/-- `ifNull(lessOrEquals(a, b), 0)`: null-safe comparison, `false` when
either side is `NULL`. -/
def leOpt : Option Nat → Option Nat → Bool
  | some a, some b => decide (a ≤ b)
  | _, _ => false

/-- Second layer, per row: `if(ifNull(less(latest_2, latest_1), 0), NULL,
latest_2)` — null out a `latest_2` that happened strictly before
`latest_1`. -/
def nullOutRow (r : Row) : Row :=
  { r with latest_2 := if ltOpt r.latest_2 r.latest_1 then none else r.latest_2 }

/-- Second window layer (a plain per-row map). -/
def stage2 (rows : List Row) : List Row := rows.map nullOutRow

/-- Third window layer: re-minimize the nulled-out `latest_2` over the
same descending-order frame. -/
def stage3 : List Row → List Row
  | [] => []
  | r :: rest => { r with latest_2 := minOpt r.latest_2 (minLatest2 rest) } :: stage3 rest

/-- The composed window resolution (the three nested window subqueries). -/
def resolve (rows : List Row) : List Row := stage3 (stage2 (stage1 rows))

/-- `plus(a, w)` on a nullable timestamp. -/
def plusOpt : Option Nat → Nat → Option Nat
  | some a, w => some (a + w)
  | none, _ => none

/-- `toIntervalDay(14)` in seconds: the conversion window of the query. -/
def windowSeconds : Nat := 14 * 86400

/-- The `steps` column:
`if(and(latest_0 <= latest_1, latest_1 <= latest_0 + W, latest_1 <=
latest_2, latest_2 <= latest_0 + W), 3, if(and(latest_0 <= latest_1,
latest_1 <= latest_0 + W), 2, 1))`, every comparison null-safe. -/
def stepsOf (w : Nat) (l0 l1 l2 : Option Nat) : Nat :=
  if leOpt l0 l1 && leOpt l1 (plusOpt l0 w) && leOpt l1 l2 && leOpt l2 (plusOpt l0 w) then 3
  else if leOpt l0 l1 && leOpt l1 (plusOpt l0 w) then 2
  else 1

/-- `dateDiff('second', a, b)` on nullable timestamps. -/
def dateDiffSec : Option Nat → Option Nat → Option Int
  | some a, some b => some ((b : Int) - (a : Int))
  | _, _ => none

/-- `step_1_conversion_time`: `if(and(isNotNull(latest_1), latest_1 <=
latest_0 + W), dateDiff('second', latest_0, latest_1), NULL)`. -/
def convTime1 (w : Nat) (l0 l1 : Option Nat) : Option Int :=
  if l1.isSome && leOpt l1 (plusOpt l0 w) then dateDiffSec l0 l1 else none

/-- `step_2_conversion_time`: `if(and(isNotNull(latest_2), latest_2 <=
latest_1 + W), dateDiff('second', latest_1, latest_2), NULL)` — note the
anchor is `latest_1`, the previous step, not the entrance. -/
def convTime2 (w : Nat) (l1 l2 : Option Nat) : Option Int :=
  if l2.isSome && leOpt l2 (plusOpt l1 w) then dateDiffSec l1 l2 else none

/-- One evaluated row: the resolved timestamps together with the computed
`steps` and conversion-time columns. -/
structure EvalRow where
  timestamp : Nat
  step_0 : Bool
  latest_0 : Option Nat
  latest_1 : Option Nat
  latest_2 : Option Nat
  steps : Nat
  step_1_conversion_time : Option Int
  step_2_conversion_time : Option Int
deriving DecidableEq

/-- The select list computing `steps` and the conversion times. -/
def evalRow (w : Nat) (r : Row) : EvalRow :=
  { timestamp := r.timestamp
    step_0 := r.step_0
    latest_0 := r.latest_0
    latest_1 := r.latest_1
    latest_2 := r.latest_2
    steps := stepsOf w r.latest_0 r.latest_1 r.latest_2
    step_1_conversion_time := convTime1 w r.latest_0 r.latest_1
    step_2_conversion_time := convTime2 w r.latest_1 r.latest_2 }

/-- The evaluated entrance rows of one actor: resolve the windows, compute
the depth columns, and keep the entrance candidates (`WHERE step_0 = 1`). -/
def evaluated (w : Nat) (events : List Ev) : List EvalRow :=
  ((resolve (stage0 events)).map (evalRow w)).filter (fun r => r.step_0)

/-- `toStartOfDay(timestamp)`: truncate a timestamp to its day. -/
def toStartOfDay (t : Nat) : Nat := t / 86400 * 86400

/-- One actor (`aggregation_target`) with its ascending event stream. -/
structure Actor where
  id : Nat
  events : List Ev
deriving DecidableEq

/-- `max` over a list of step counts: `none` on an empty group. -/
def listMax : List Nat → Option Nat
  | [] => none
  | a :: l =>
      some (match listMax l with
            | none => a
            | some b => max a b)

/-- The `steps` values of one actor's entrance rows whose
`entrance_period_start` equals the requested period `P`
(the `WHERE entrance_period_start = ...` filter before grouping). -/
def periodSteps (w P : Nat) (a : Actor) : List Nat :=
  ((evaluated w a.events).filter (fun r => toStartOfDay r.timestamp = P)).map EvalRow.steps

/-- The `GROUP BY aggregation_target, entrance_period_start` /
`max(steps) AS steps_completed` aggregation, restricted to the requested
period: one `(actor_id, steps_completed)` row per actor having at least
one entrance in that period. -/
def cohort (w P : Nat) (actors : List Actor) : List (Nat × Nat) :=
  actors.filterMap fun a => (listMax (periodSteps w P a)).map fun s => (a.id, s)

/-- The depth predicate of a trend query. -/
inductive DepthPred where
  | atLeast (k : Nat)
  | range (lo hi : Nat)

/-- The `WHERE` clause on `steps_completed`: `steps_completed >= k`, or
`steps_completed >= lo AND steps_completed < hi`. -/
def depthHolds : DepthPred → Nat → Bool
  | .atLeast k, s => decide (k ≤ s)
  | .range lo hi, s => decide (lo ≤ s) && decide (s < hi)

/-- The step count `N` of the snapshot query. -/
def totalSteps : Nat := 3

/-- "Fully completed" is expressed as `steps_completed >= N`. -/
def fullyCompleted : DepthPred := .atLeast totalSteps

/-- The selected `actor_id`s: cohort rows of the requested period passing
the depth predicate. -/
def selectActors (w P : Nat) (dp : DepthPred) (actors : List Actor) : List Nat :=
  ((cohort w P actors).filter (fun x => depthHolds dp x.2)).map Prod.fst

/-- A person row of the outer join: `(persons.id, persons.created_at)`. -/
structure Person where
  id : Nat
  created_at : Nat
deriving DecidableEq

/-- `INNER JOIN ... ON equals(persons.id, source.actor_id)`. -/
def joinedRows (persons : List Person) (sel : List Nat) : List Person :=
  persons.filter (fun p => sel.contains p.id)

/-- `ORDER BY created_at DESC`: the comparison the final sort is taken
over (non-strict, so equal creation times may appear in either order). -/
def createdDesc (p q : Person) : Prop := q.created_at ≤ p.created_at

instance (p q : Person) : Decidable (createdDesc p q) := Nat.decLe _ _

/-- The contract of the outer query: some reordering of the joined rows
that is sorted by `created_at` descending, of which `LIMIT 101 OFFSET 0`
is returned. `ORDER BY` alone does not fix the relative order of rows
with equal `created_at`, so the result is a relation, not a function. -/
def isQueryResult (persons : List Person) (sel : List Nat) (out : List Person) : Prop :=
  ∃ full : List Person,
    full.Perm (joinedRows persons sel) ∧ full.Sorted createdDesc ∧
      out = (full.drop 0).take 101

/-- The `latest_2` value assigned by the third window layer at the head of
a suffix of the row list (suffix form of the nested window subqueries). -/
def final2 (rows : List Row) : Option Nat := minLatest2 (stage2 (stage1 rows))

/-- The `latest_2` value the second layer assigns at the head of a suffix:
the suffix minimum of `latest_2`, nulled out if it lies strictly before
the suffix minimum of `latest_1`. -/
def nullTest (rows : List Row) : Option Nat :=
  if ltOpt (minLatest2 rows) (minLatest1 rows) then none else minLatest2 rows

/-- The second-layer `latest_2` values of every suffix of the row list. -/
def sufVals : List Row → List (Option Nat)
  | [] => []
  | r :: rest => nullTest (r :: rest) :: sufVals rest

/-- The earliest timestamp, at or after `t`, of an event satisfying `p`
(absent when no such event exists). -/
def firstAtOrAfter (p : Ev → Bool) (t : Nat) (events : List Ev) : Option Nat :=
  minOptList (events.map fun e => if p e ∧ t ≤ e.ts then some e.ts else none)

/-- The resolved timestamp array of an evaluated row, indexed by step. -/
def latestAt (r : EvalRow) : Nat → Option Nat
  | 0 => r.latest_0
  | 1 => r.latest_1
  | 2 => r.latest_2
  | _ + 3 => none

/-- Step `i` of the row is reached within the entrance-anchored window:
`latest[i]` is present and at most `latest[0] + w`. -/
def stepOK (w : Nat) (r : EvalRow) (i : Nat) : Prop :=
  ∃ t t0, r.latest_0 = some t0 ∧ latestAt r i = some t ∧ t ≤ t0 + w

/-- Shape invariant of classified rows: every present `latest_i` equals
the row's own timestamp, and entrance rows carry their timestamp in
`latest_0`. -/
def goodRow (x : Row) : Prop :=
  (x.step_0 = true → x.latest_0 = some x.timestamp) ∧
  (∀ t, x.latest_0 = some t → t = x.timestamp) ∧
  (∀ t, x.latest_1 = some t → t = x.timestamp) ∧
  (∀ t, x.latest_2 = some t → t = x.timestamp)

/-- Events sorted ascending by timestamp. -/
def sortedLE (events : List Ev) : Prop :=
  List.Pairwise (fun a b => a.ts ≤ b.ts) events

/-- Events sorted strictly ascending by timestamp (pairwise distinct
timestamps, which is what makes the descending window order of the SQL
well determined). -/
def sortedLT (events : List Ev) : Prop :=
  List.Pairwise (fun a b => a.ts < b.ts) events

instance (l : List Ev) : Decidable (sortedLE l) := by
  unfold sortedLE
  infer_instance

instance (l : List Ev) : Decidable (sortedLT l) := by
  unfold sortedLT
  infer_instance

/-- Rows ordered by timestamp. -/
def rowLE (a b : Row) : Prop := a.timestamp ≤ b.timestamp

/-- Rows strictly ordered by timestamp. -/
def rowLT (a b : Row) : Prop := a.timestamp < b.timestamp

/-- Spec scenario: steps 0, 1, 2 one day apart. -/
def evScenarioA : List Ev :=
  [⟨"step one", 0⟩, ⟨"step two", 86400⟩, ⟨"step three", 172800⟩]

/-- An entrance followed by a step-2 event with no step-1 event at all. -/
def evNoStep1 : List Ev := [⟨"step one", 0⟩, ⟨"step three", 86400⟩]

/-- An entrance with step 1 after 10 days and step 2 after 20 days: step 2
is within 14 days of step 1 but not of the entrance. -/
def evDualAnchor : List Ev :=
  [⟨"step one", 0⟩, ⟨"step two", 864000⟩, ⟨"step three", 1728000⟩]

/-- A two-actor input for the aggregation claims. -/
def actorsEx : List Actor := [⟨1, evScenarioA⟩, ⟨2, evNoStep1⟩]

/-- Two persons sharing one `created_at`. -/
def personsEx : List Person := [⟨1, 5⟩, ⟨2, 5⟩]

/-- Both persons selected. -/
def selEx : List Nat := [1, 2]

/-- The resolved entrance row of `evScenarioA`. -/
def rowA : Row := ⟨0, true, some 0, false, some 86400, false, some 172800⟩

/-- The evaluated entrance row of `evScenarioA` at the 14-day window. -/
def evalRowA : EvalRow := ⟨0, true, some 0, some 86400, some 172800, 3, some 86400, some 86400⟩

/-- The resolved entrance row of `evNoStep1`: `latest_1` is absent while
`latest_2` is present. -/
def rowB : Row := ⟨0, true, some 0, false, none, false, some 86400⟩

/-- The evaluated entrance row of `evNoStep1` at the 14-day window. -/
def evalRowB : EvalRow := ⟨0, true, some 0, none, some 86400, 1, none, none⟩

theorem minOptList_cons (a : Option Nat) (l : List (Option Nat)) :
    minOptList (a :: l) = minOpt a (minOptList l) := rfl

theorem minOpt_eq_none {a b : Option Nat} : minOpt a b = none ↔ a = none ∧ b = none := by
  cases a <;> cases b <;> simp [minOpt]

theorem minOptList_eq_none {l : List (Option Nat)} :
    minOptList l = none ↔ ∀ x ∈ l, x = none := by
  induction l with
  | nil => simp [minOptList]
  | cons a l ih =>
      rw [minOptList_cons, minOpt_eq_none]
      simp [ih]

theorem minOpt_cases {a b : Option Nat} {t : Nat} (h : minOpt a b = some t) :
    a = some t ∨ b = some t := by
  cases a <;> cases b <;> simp [minOpt] at h ⊢ <;> omega

theorem minOpt_le {a b : Option Nat} {t : Nat} (h : minOpt a b = some t) :
    (∀ u, a = some u → t ≤ u) ∧ (∀ u, b = some u → t ≤ u) := by
  cases a <;> cases b <;> simp [minOpt] at h ⊢ <;> omega

theorem minOptList_mem {l : List (Option Nat)} {t : Nat}
    (h : minOptList l = some t) : some t ∈ l := by
  induction l generalizing t with
  | nil => simp [minOptList] at h
  | cons a l ih =>
      rw [minOptList_cons] at h
      rcases minOpt_cases h with ha | hb
      · exact ha ▸ List.mem_cons_self _ _
      · exact List.mem_cons_of_mem _ (ih hb)

theorem minOptList_le {l : List (Option Nat)} {t u : Nat}
    (h : minOptList l = some t) (hu : some u ∈ l) : t ≤ u := by
  induction l generalizing t with
  | nil => simp at hu
  | cons a l ih =>
      rw [minOptList_cons] at h
      rcases List.mem_cons.mp hu with hae | hul
      · exact (minOpt_le h).1 u hae.symm
      · cases hb : minOptList l with
        | none => exact absurd (minOptList_eq_none.mp hb _ hul) (by simp)
        | some y =>
            have hty : t ≤ y := (minOpt_le h).2 y hb
            have hyu : y ≤ u := ih hb hul
            omega

theorem minOptList_eq_some {l : List (Option Nat)} {t : Nat}
    (h1 : some t ∈ l) (h2 : ∀ u, some u ∈ l → t ≤ u) : minOptList l = some t := by
  cases h : minOptList l with
  | none => exact absurd (minOptList_eq_none.mp h _ h1) (by simp)
  | some v =>
      have hvt : t ≤ v := h2 v (minOptList_mem h)
      have htv : v ≤ t := minOptList_le h h1
      congr 1
      omega

theorem minOptList_congr {l1 l2 : List (Option Nat)}
    (h : ∀ t, some t ∈ l1 ↔ some t ∈ l2) : minOptList l1 = minOptList l2 := by
  cases h1 : minOptList l1 with
  | none =>
      cases h2 : minOptList l2 with
      | none => rfl
      | some t =>
          have := (h t).mpr (minOptList_mem h2)
          exact absurd (minOptList_eq_none.mp h1 _ this) (by simp)
  | some t =>
      have ht2 : some t ∈ l2 := (h t).mp (minOptList_mem h1)
      refine (minOptList_eq_some ht2 ?_).symm
      intro u hu
      exact minOptList_le h1 ((h u).mpr hu)

theorem listMax_mem {l : List Nat} {s : Nat} (h : listMax l = some s) : s ∈ l := by
  induction l generalizing s with
  | nil => simp [listMax] at h
  | cons a l ih =>
      rw [listMax] at h
      cases hl : listMax l with
      | none => rw [hl] at h; simp at h; simp [h]
      | some b =>
          rw [hl] at h
          simp only [Option.some.injEq] at h
          rcases Nat.le_total a b with hab | hba
          · have : s = b := by omega
            exact List.mem_cons_of_mem _ (this ▸ ih hl)
          · have : s = a := by omega
            simp [this]

theorem listMax_ge {l : List Nat} {s u : Nat} (h : listMax l = some s) (hu : u ∈ l) :
    u ≤ s := by
  induction l generalizing s with
  | nil => simp at hu
  | cons a l ih =>
      rw [listMax] at h
      cases hl : listMax l with
      | none =>
          have : l = [] := by
            cases l with
            | nil => rfl
            | cons b m => rw [listMax] at hl; cases listMax m <;> simp at hl
          subst this
          rw [hl] at h
          simp at h hu
          omega
      | some b =>
          rw [hl] at h
          simp only [Option.some.injEq] at h
          rcases List.mem_cons.mp hu with hua | hul
          · omega
          · have := ih hl hul
            omega

theorem mem_stage0 {events : List Ev} {r : Row} :
    r ∈ stage0 events ↔
      ∃ e, (e ∈ events ∧ (isStep0 e || isStep1 e || isStep2 e) = true) ∧ classify e = r := by
  simp [stage0, List.mem_map, List.mem_filter]

theorem classify_latest0_some {e : Ev} {t : Nat} :
    (classify e).latest_0 = some t ↔ isStep0 e = true ∧ e.ts = t := by
  by_cases h : isStep0 e <;> simp [classify, h]

theorem classify_latest1_some {e : Ev} {t : Nat} :
    (classify e).latest_1 = some t ↔ isStep1 e = true ∧ e.ts = t := by
  by_cases h : isStep1 e <;> simp [classify, h]

theorem classify_latest2_some {e : Ev} {t : Nat} :
    (classify e).latest_2 = some t ↔ isStep2 e = true ∧ e.ts = t := by
  by_cases h : isStep2 e <;> simp [classify, h]

theorem goodRow_stage0 {events : List Ev} {r : Row} (hr : r ∈ stage0 events) :
    goodRow r := by
  obtain ⟨e, _, hre⟩ := mem_stage0.mp hr
  subst hre
  refine ⟨?_, ?_, ?_, ?_⟩
  · intro h
    simp only [classify] at h ⊢
    simp [h]
  · intro t ht
    exact ((classify_latest0_some).mp ht).2.symm
  · intro t ht
    exact ((classify_latest1_some).mp ht).2.symm
  · intro t ht
    exact ((classify_latest2_some).mp ht).2.symm

theorem stage0_pairwise_le {events : List Ev} (h : sortedLE events) :
    (stage0 events).Pairwise rowLE := by
  rw [stage0, List.pairwise_map]
  exact h.filter _

theorem stage0_pairwise_lt {events : List Ev} (h : sortedLT events) :
    (stage0 events).Pairwise rowLT := by
  rw [stage0, List.pairwise_map]
  exact h.filter _

theorem pairwise_head_le {r : Row} {rest : List Row}
    (h : (r :: rest).Pairwise rowLE) : ∀ x ∈ r :: rest, r.timestamp ≤ x.timestamp := by
  intro x hx
  rcases List.mem_cons.mp hx with hx | hx
  · exact hx ▸ Nat.le_refl _
  · exact (List.pairwise_cons.mp h).1 x hx

theorem minLatest1_cons (r : Row) (rest : List Row) :
    minLatest1 (r :: rest) = minOpt r.latest_1 (minLatest1 rest) := rfl

theorem minLatest2_cons (r : Row) (rest : List Row) :
    minLatest2 (r :: rest) = minOpt r.latest_2 (minLatest2 rest) := rfl

theorem final2_cons (r : Row) (rest : List Row) :
    final2 (r :: rest) = minOpt (nullTest (r :: rest)) (final2 rest) := rfl

theorem resolve_cons (r : Row) (rest : List Row) :
    resolve (r :: rest) =
      { r with latest_1 := minLatest1 (r :: rest), latest_2 := final2 (r :: rest) } ::
        resolve rest := rfl

theorem resolve_nil : resolve [] = [] := rfl

theorem mem_resolve {rows : List Row} {x : Row} :
    x ∈ resolve rows ↔
      ∃ r rest, (r :: rest) <:+ rows ∧
        x = { r with latest_1 := minLatest1 (r :: rest), latest_2 := final2 (r :: rest) } := by
  induction rows with
  | nil =>
      rw [resolve_nil]
      simp only [List.not_mem_nil, false_iff]
      rintro ⟨r, rest, hs, _⟩
      exact absurd (List.suffix_nil.mp hs) (by simp)
  | cons a l ih =>
      rw [resolve_cons]
      constructor
      · intro hx
        rcases List.mem_cons.mp hx with hx | hx
        · exact ⟨a, l, List.suffix_refl _, hx⟩
        · obtain ⟨r, rest, hs, hxe⟩ := ih.mp hx
          exact ⟨r, rest, hs.trans (List.suffix_cons a l), hxe⟩
      · rintro ⟨r, rest, hs, hxe⟩
        rcases List.suffix_cons_iff.mp hs with heq | hs'
        · injection heq with hra hrl
          subst hra
          subst hrl
          rw [hxe]
          exact List.mem_cons_self _ _
        · exact List.mem_cons_of_mem _ (ih.mpr ⟨r, rest, hs', hxe⟩)

theorem mem_sufVals {rows : List Row} {v : Option Nat} :
    v ∈ sufVals rows ↔ ∃ r rest, (r :: rest) <:+ rows ∧ v = nullTest (r :: rest) := by
  induction rows with
  | nil =>
      simp only [sufVals, List.not_mem_nil, false_iff]
      rintro ⟨r, rest, hs, _⟩
      exact absurd (List.suffix_nil.mp hs) (by simp)
  | cons a l ih =>
      rw [sufVals]
      constructor
      · intro hv
        rcases List.mem_cons.mp hv with hv | hv
        · exact ⟨a, l, List.suffix_refl _, hv⟩
        · obtain ⟨r, rest, hs, hve⟩ := ih.mp hv
          exact ⟨r, rest, hs.trans (List.suffix_cons a l), hve⟩
      · rintro ⟨r, rest, hs, hve⟩
        rcases List.suffix_cons_iff.mp hs with heq | hs'
        · rw [hve, heq]
          exact List.mem_cons_self _ _
        · exact List.mem_cons_of_mem _ (ih.mpr ⟨r, rest, hs', hve⟩)

theorem final2_eq_sufVals (rows : List Row) : final2 rows = minOptList (sufVals rows) := by
  induction rows with
  | nil => rfl
  | cons r rest ih => rw [final2_cons, sufVals, minOptList_cons, ih]

theorem head_le_minLatest1 {r : Row} {rest : List Row} {t : Nat}
    (hp : (r :: rest).Pairwise rowLE) (hg : ∀ x ∈ r :: rest, goodRow x)
    (h : minLatest1 (r :: rest) = some t) : r.timestamp ≤ t := by
  obtain ⟨x, hx, hxe⟩ := List.mem_map.mp (minOptList_mem h)
  have ht : t = x.timestamp := (hg x hx).2.2.1 t hxe
  exact ht ▸ pairwise_head_le hp x hx

theorem head_le_minLatest2 {r : Row} {rest : List Row} {t : Nat}
    (hp : (r :: rest).Pairwise rowLE) (hg : ∀ x ∈ r :: rest, goodRow x)
    (h : minLatest2 (r :: rest) = some t) : r.timestamp ≤ t := by
  obtain ⟨x, hx, hxe⟩ := List.mem_map.mp (minOptList_mem h)
  have ht : t = x.timestamp := (hg x hx).2.2.2 t hxe
  exact ht ▸ pairwise_head_le hp x hx

theorem sufVal_bound {s : List Row} (hp : s.Pairwise rowLE) (hg : ∀ x ∈ s, goodRow x)
    {t1 t : Nat} (h1 : minLatest1 s = some t1)
    {r' : Row} {rest' : List Row} (hs : (r' :: rest') <:+ s)
    (hnt : nullTest (r' :: rest') = some t) : t1 ≤ t := by
  by_cases hlt : ltOpt (minLatest2 (r' :: rest')) (minLatest1 (r' :: rest')) = true
  · rw [nullTest, if_pos hlt] at hnt
    exact absurd hnt (by simp)
  · rw [nullTest, if_neg hlt] at hnt
    cases hm1 : minLatest1 (r' :: rest') with
    | some u =>
        rw [hnt, hm1] at hlt
        have hut : u ≤ t := by
          simp only [ltOpt, decide_eq_true_eq] at hlt
          omega
        obtain ⟨x, hx, hxe⟩ := List.mem_map.mp (minOptList_mem hm1)
        have hxs : some u ∈ s.map Row.latest_1 :=
          List.mem_map.mpr ⟨x, hs.subset hx, hxe⟩
        have := minOptList_le h1 hxs
        omega
    | none =>
        obtain ⟨x1, hx1, hx1e⟩ := List.mem_map.mp (minOptList_mem h1)
        obtain ⟨x2, hx2, hx2e⟩ := List.mem_map.mp (minOptList_mem hnt)
        have hx2s : x2 ∈ s := hs.subset hx2
        have hx1n : x1 ∉ r' :: rest' := by
          intro hmem
          have : x1.latest_1 = none :=
            minOptList_eq_none.mp hm1 _ (List.mem_map.mpr ⟨x1, hmem, rfl⟩)
          rw [this] at hx1e
          exact absurd hx1e (by simp)
        obtain ⟨pre, hpre⟩ := hs
        have hx1p : x1 ∈ pre := by
          rw [← hpre] at hx1
          rcases List.mem_append.mp hx1 with h | h
          · exact h
          · exact absurd h hx1n
        have hle : rowLE x1 x2 := by
          rw [← hpre] at hp
          exact (List.pairwise_append.mp hp).2.2 x1 hx1p x2 hx2
        have ht1 : t1 = x1.timestamp := (hg x1 hx1).2.2.1 t1 hx1e
        have ht : t = x2.timestamp := (hg x2 hx2s).2.2.2 t hx2e
        rw [ht1, ht]
        exact hle

theorem minLatest1_le_final2 {s : List Row} (hp : s.Pairwise rowLE)
    (hg : ∀ x ∈ s, goodRow x) {t1 t2 : Nat}
    (h1 : minLatest1 s = some t1) (h2 : final2 s = some t2) : t1 ≤ t2 := by
  rw [final2_eq_sufVals] at h2
  obtain ⟨r', rest', hs, hv⟩ := mem_sufVals.mp (minOptList_mem h2)
  exact sufVal_bound hp hg h1 hs hv.symm

theorem resolve_invariants {events : List Ev} (hs : sortedLE events) {x : Row}
    (hx : x ∈ resolve (stage0 events)) :
    (x.step_0 = true → x.latest_0 = some x.timestamp) ∧
    (∀ t, x.latest_0 = some t → t = x.timestamp) ∧
    (∀ t, x.latest_1 = some t → x.timestamp ≤ t) ∧
    (∀ t1 t2, x.latest_1 = some t1 → x.latest_2 = some t2 → t1 ≤ t2) := by
  obtain ⟨r, rest, hsuf, hxe⟩ := mem_resolve.mp hx
  have hpw : (r :: rest).Pairwise rowLE := (stage0_pairwise_le hs).sublist hsuf.sublist
  have hgood : ∀ y ∈ r :: rest, goodRow y := fun y hy => goodRow_stage0 (hsuf.subset hy)
  subst hxe
  refine ⟨?_, ?_, ?_, ?_⟩
  · intro h0
    exact (hgood r (List.mem_cons_self _ _)).1 h0
  · intro t ht
    exact (hgood r (List.mem_cons_self _ _)).2.1 t ht
  · intro t ht
    show r.timestamp ≤ t
    exact head_le_minLatest1 hpw hgood ht
  · intro t1 t2 h1 h2
    exact minLatest1_le_final2 hpw hgood h1 h2

theorem mem_firstAtOrAfter_map {p : Ev → Bool} {t0 : Nat} {events : List Ev} {u : Nat} :
    (some u ∈ events.map fun e => if p e ∧ t0 ≤ e.ts then some e.ts else none) ↔
      ∃ e ∈ events, p e = true ∧ t0 ≤ e.ts ∧ e.ts = u := by
  simp only [List.mem_map]
  constructor
  · rintro ⟨e, he, hite⟩
    by_cases hc : p e = true ∧ t0 ≤ e.ts
    · rw [if_pos hc] at hite
      exact ⟨e, he, hc.1, hc.2, Option.some.inj hite⟩
    · rw [if_neg hc] at hite
      exact absurd hite (by simp)
  · rintro ⟨e, he, h1, h2, h3⟩
    exact ⟨e, he, by rw [if_pos ⟨h1, h2⟩, h3]⟩

theorem classify_mem_stage0 {events : List Ev} {e : Ev} (he : e ∈ events)
    (hc : (isStep0 e || isStep1 e || isStep2 e) = true) : classify e ∈ stage0 events :=
  mem_stage0.mpr ⟨e, ⟨he, hc⟩, rfl⟩

theorem suffix_mem_of_ge {events : List Ev} (hs : sortedLT events)
    {r : Row} {rest : List Row} (hsuf : (r :: rest) <:+ stage0 events)
    {x : Row} (hx : x ∈ stage0 events) (hge : r.timestamp ≤ x.timestamp) :
    x ∈ r :: rest := by
  obtain ⟨pre, hpre⟩ := hsuf
  rw [← hpre] at hx
  rcases List.mem_append.mp hx with hxp | hxs
  · have hplt : (stage0 events).Pairwise rowLT := stage0_pairwise_lt hs
    rw [← hpre] at hplt
    have hlt : rowLT x r :=
      (List.pairwise_append.mp hplt).2.2 x hxp r (List.mem_cons_self _ _)
    exact absurd hge (by rw [rowLT] at hlt; omega)
  · exact hxs

theorem minLatest1_eq_firstAtOrAfter {events : List Ev} (hs : sortedLT events)
    {r : Row} {rest : List Row} (hsuf : (r :: rest) <:+ stage0 events) :
    minLatest1 (r :: rest) = firstAtOrAfter isStep1 r.timestamp events := by
  have hple : (r :: rest).Pairwise rowLE :=
    ((stage0_pairwise_lt hs).sublist hsuf.sublist).imp fun h => Nat.le_of_lt h
  refine minOptList_congr fun t => ?_
  constructor
  · intro hmem
    obtain ⟨x, hx, hxe⟩ := List.mem_map.mp hmem
    obtain ⟨e, ⟨he, _⟩, hce⟩ := mem_stage0.mp (hsuf.subset hx)
    have h1 : isStep1 e = true ∧ e.ts = t := classify_latest1_some.mp (hce ▸ hxe)
    have hts : r.timestamp ≤ e.ts := by
      have := pairwise_head_le hple x hx
      rw [← hce] at this
      exact this
    exact mem_firstAtOrAfter_map.mpr ⟨e, he, h1.1, hts, h1.2⟩
  · intro hmem
    obtain ⟨e, he, hp, hge, hts⟩ := mem_firstAtOrAfter_map.mp hmem
    have hcl : classify e ∈ stage0 events :=
      classify_mem_stage0 he (by rw [hp]; simp)
    have hmem2 : classify e ∈ r :: rest := suffix_mem_of_ge hs hsuf hcl hge
    exact List.mem_map.mpr ⟨classify e, hmem2, classify_latest1_some.mpr ⟨hp, hts⟩⟩

theorem sufVals_candidate {events : List Ev} (hs : sortedLE events)
    {r : Row} {rest : List Row} (hsuf : (r :: rest) <:+ stage0 events)
    {t1 t : Nat} (h1 : minLatest1 (r :: rest) = some t1)
    (ht : some t ∈ sufVals (r :: rest)) :
    t1 ≤ t ∧ ∃ e ∈ events, isStep2 e = true ∧ e.ts = t := by
  have hple : (r :: rest).Pairwise rowLE := (stage0_pairwise_le hs).sublist hsuf.sublist
  have hgood : ∀ y ∈ r :: rest, goodRow y := fun y hy => goodRow_stage0 (hsuf.subset hy)
  obtain ⟨r', rest', hs', hv⟩ := mem_sufVals.mp ht
  have hbound := sufVal_bound hple hgood h1 hs' hv.symm
  refine ⟨hbound, ?_⟩
  have hm2 : minLatest2 (r' :: rest') = some t := by
    by_cases hlt : ltOpt (minLatest2 (r' :: rest')) (minLatest1 (r' :: rest')) = true
    · rw [nullTest, if_pos hlt] at hv
      exact absurd hv (by simp)
    · rw [nullTest, if_neg hlt] at hv
      exact hv.symm
  obtain ⟨x2, hx2, hx2e⟩ := List.mem_map.mp (minOptList_mem hm2)
  obtain ⟨e, ⟨he, _⟩, hce⟩ := mem_stage0.mp (hsuf.subset (hs'.subset hx2))
  have h2 : isStep2 e = true ∧ e.ts = t := classify_latest2_some.mp (hce ▸ hx2e)
  exact ⟨e, he, h2.1, h2.2⟩

theorem final2_eq_firstAtOrAfter {events : List Ev} (hs : sortedLT events)
    {r : Row} {rest : List Row} (hsuf : (r :: rest) <:+ stage0 events)
    {t1 : Nat} (h1 : minLatest1 (r :: rest) = some t1) :
    final2 (r :: rest) = firstAtOrAfter isStep2 t1 events := by
  have hsle : sortedLE events := hs.imp fun h => Nat.le_of_lt h
  have hple : (r :: rest).Pairwise rowLE := (stage0_pairwise_le hsle).sublist hsuf.sublist
  have hgood : ∀ y ∈ r :: rest, goodRow y := fun y hy => goodRow_stage0 (hsuf.subset hy)
  rw [final2_eq_sufVals]
  cases hF : firstAtOrAfter isStep2 t1 events with
  | none =>
      refine minOptList_eq_none.mpr fun v hv => ?_
      cases v with
      | none => rfl
      | some t =>
          obtain ⟨_, e, he, hp, hts⟩ := sufVals_candidate hsle hsuf h1 hv
          have ht1t : t1 ≤ t := (sufVals_candidate hsle hsuf h1 hv).1
          have : some t ∈ events.map fun e => if isStep2 e ∧ t1 ≤ e.ts then some e.ts else none :=
            mem_firstAtOrAfter_map.mpr ⟨e, he, hp, hts ▸ ht1t, hts⟩
          exact absurd (minOptList_eq_none.mp hF _ this) (by simp)
  | some tstar =>
      obtain ⟨estar, hestar, hpstar, hgestar, htsstar⟩ :=
        mem_firstAtOrAfter_map.mp (minOptList_mem hF)
      obtain ⟨w1, hw1, hw1e⟩ := List.mem_map.mp (minOptList_mem h1)
      have ht1w : t1 = w1.timestamp := (hgood w1 hw1).2.2.1 t1 hw1e
      obtain ⟨pre1, post1, hsplit⟩ := List.append_of_mem hw1
      have hsuf1 : (w1 :: post1) <:+ (r :: rest) := ⟨pre1, hsplit.symm⟩
      have hsuf1s : (w1 :: post1) <:+ stage0 events := hsuf1.trans hsuf
      have hple1 : (w1 :: post1).Pairwise rowLE := hple.sublist hsuf1.sublist
      have hgood1 : ∀ y ∈ w1 :: post1, goodRow y := fun y hy => hgood y (hsuf1.subset hy)
      have hm1 : minLatest1 (w1 :: post1) = some t1 := by
        refine minOptList_eq_some (List.mem_map.mpr ⟨w1, List.mem_cons_self _ _, hw1e⟩) ?_
        intro u hu
        obtain ⟨x, hx, hxe⟩ := List.mem_map.mp hu
        have hux : u = x.timestamp := (hgood1 x hx).2.2.1 u hxe
        have := pairwise_head_le hple1 x hx
        omega
      have hclstar : classify estar ∈ stage0 events :=
        classify_mem_stage0 hestar (by rw [hpstar]; simp)
      have hmemstar : classify estar ∈ w1 :: post1 := by
        refine suffix_mem_of_ge hs hsuf1s hclstar ?_
        show w1.timestamp ≤ estar.ts
        omega
      have hm2 : minLatest2 (w1 :: post1) = some tstar := by
        refine minOptList_eq_some
          (List.mem_map.mpr ⟨classify estar, hmemstar, classify_latest2_some.mpr ⟨hpstar, htsstar⟩⟩) ?_
        intro u hu
        obtain ⟨x, hx, hxe⟩ := List.mem_map.mp hu
        obtain ⟨e, ⟨he, _⟩, hce⟩ := mem_stage0.mp (hsuf1s.subset hx)
        have h2 : isStep2 e = true ∧ e.ts = u := classify_latest2_some.mp (hce ▸ hxe)
        have hux : u = x.timestamp := (hgood1 x hx).2.2.2 u hxe
        have hwx := pairwise_head_le hple1 x hx
        have ht1u : t1 ≤ u := by omega
        have : some u ∈ events.map fun e => if isStep2 e ∧ t1 ≤ e.ts then some e.ts else none :=
          mem_firstAtOrAfter_map.mpr ⟨e, he, h2.1, h2.2 ▸ ht1u, h2.2⟩
        exact minOptList_le hF this
      have hnt : nullTest (w1 :: post1) = some tstar := by
        rw [nullTest, hm1, hm2, if_neg]
        simp only [ltOpt, decide_eq_true_eq]
        omega
      refine minOptList_eq_some ?_ ?_
      · exact hnt ▸ mem_sufVals.mpr ⟨w1, post1, hsuf1, rfl⟩
      · intro u hu
        obtain ⟨ht1u, e, he, hp, hts⟩ := sufVals_candidate hsle hsuf h1 hu
        have : some u ∈ events.map fun e => if isStep2 e ∧ t1 ≤ e.ts then some e.ts else none :=
          mem_firstAtOrAfter_map.mpr ⟨e, he, hp, hts ▸ ht1u, hts⟩
        exact minOptList_le hF this

theorem stepsOf_pos (w : Nat) (l0 l1 l2 : Option Nat) : 1 ≤ stepsOf w l0 l1 l2 := by
  unfold stepsOf
  split
  · omega
  · split <;> omega

theorem stepsOf_le_three (w : Nat) (l0 l1 l2 : Option Nat) : stepsOf w l0 l1 l2 ≤ 3 := by
  unfold stepsOf
  split
  · omega
  · split <;> omega

theorem leOpt_plusOpt_mono {w w' : Nat} (h : w ≤ w') {l l0 : Option Nat}
    (hle : leOpt l (plusOpt l0 w) = true) : leOpt l (plusOpt l0 w') = true := by
  cases l <;> cases l0
  all_goals simp [leOpt, plusOpt] at hle ⊢
  omega

theorem convTime1_eq_some {w : Nat} {l0 l1 : Option Nat} {d : Int} :
    convTime1 w l0 l1 = some d ↔
      ∃ t0 t1, l0 = some t0 ∧ l1 = some t1 ∧ t1 ≤ t0 + w ∧ d = (t1 : Int) - (t0 : Int) := by
  cases l0 with
  | none => cases l1 <;> simp [convTime1, leOpt, plusOpt]
  | some t0 =>
      cases l1 with
      | none => simp [convTime1]
      | some t1 =>
          by_cases hb : t1 ≤ t0 + w
          · simp [convTime1, leOpt, plusOpt, dateDiffSec, hb, eq_comm]
          · simp [convTime1, leOpt, plusOpt, hb]

theorem convTime2_eq_some {w : Nat} {l1 l2 : Option Nat} {d : Int} :
    convTime2 w l1 l2 = some d ↔
      ∃ t1 t2, l1 = some t1 ∧ l2 = some t2 ∧ t2 ≤ t1 + w ∧ d = (t2 : Int) - (t1 : Int) := by
  cases l1 with
  | none => cases l2 <;> simp [convTime2, leOpt, plusOpt]
  | some t1 =>
      cases l2 with
      | none => simp [convTime2]
      | some t2 =>
          by_cases hb : t2 ≤ t1 + w
          · simp [convTime2, leOpt, plusOpt, dateDiffSec, hb, eq_comm]
          · simp [convTime2, leOpt, plusOpt, hb]

/-- C2: over an event stream with strictly ascending timestamps (the
descending window order of the SQL is only determined when timestamps are
pairwise distinct), every entrance candidate row resolves `latest_1` to
the earliest step-1 timestamp at or after the entrance timestamp, and,
whenever `latest_1` is present, `latest_2` to the earliest step-2
timestamp at or after `latest_1`; an event satisfying a step but occurring
before the previous step's resolved timestamp is never used. -/
theorem c2_resolution_rule {events : List Ev} {x : Row}
    (hsort : sortedLT events) (hx : x ∈ resolve (stage0 events)) (h0 : x.step_0 = true) :
    x.latest_0 = some x.timestamp ∧
    x.latest_1 = firstAtOrAfter isStep1 x.timestamp events ∧
    ∀ t1, x.latest_1 = some t1 → x.latest_2 = firstAtOrAfter isStep2 t1 events := by
  obtain ⟨r, rest, hsuf, hxe⟩ := mem_resolve.mp hx
  have hgoodr : goodRow r := goodRow_stage0 (hsuf.subset (List.mem_cons_self _ _))
  subst hxe
  refine ⟨hgoodr.1 h0, ?_, ?_⟩
  · show minLatest1 (r :: rest) = firstAtOrAfter isStep1 r.timestamp events
    exact minLatest1_eq_firstAtOrAfter hsort hsuf
  · intro t1 h1
    show final2 (r :: rest) = firstAtOrAfter isStep2 t1 events
    exact final2_eq_firstAtOrAfter hsort hsuf h1

/-- Witness for C2 at the three-event scenario. -/
theorem c2_witness :
    sortedLT evScenarioA ∧ rowA ∈ resolve (stage0 evScenarioA) ∧ rowA.step_0 = true ∧
      (rowA.latest_0 = some rowA.timestamp ∧
       rowA.latest_1 = firstAtOrAfter isStep1 rowA.timestamp evScenarioA ∧
       ∀ t1, rowA.latest_1 = some t1 →
         rowA.latest_2 = firstAtOrAfter isStep2 t1 evScenarioA) :=
  ⟨by decide, by decide, by decide, c2_resolution_rule (by decide) (by decide) (by decide)⟩

/-- C6: on an ascending event stream, the resolved chain of a row is
monotone: whenever two consecutive `latest` values are both defined, the
earlier step's timestamp is at most the later step's. -/
theorem c6_latest_monotone {events : List Ev} {x : Row}
    (hsort : sortedLE events) (hx : x ∈ resolve (stage0 events)) :
    (∀ t0 t1, x.latest_0 = some t0 → x.latest_1 = some t1 → t0 ≤ t1) ∧
    (∀ t1 t2, x.latest_1 = some t1 → x.latest_2 = some t2 → t1 ≤ t2) := by
  have hinv := resolve_invariants hsort hx
  refine ⟨?_, hinv.2.2.2⟩
  intro t0 t1 h0 h1
  have ht0 : t0 = x.timestamp := hinv.2.1 t0 h0
  have := hinv.2.2.1 t1 h1
  omega

/-- Witness for C6 at the three-event scenario. -/
theorem c6_witness :
    sortedLE evScenarioA ∧ rowA ∈ resolve (stage0 evScenarioA) ∧
      ((∀ t0 t1, rowA.latest_0 = some t0 → rowA.latest_1 = some t1 → t0 ≤ t1) ∧
       (∀ t1 t2, rowA.latest_1 = some t1 → rowA.latest_2 = some t2 → t1 ≤ t2)) :=
  ⟨by decide, by decide, @c6_latest_monotone evScenarioA rowA (by decide) (by decide)⟩

/-- C7: for fixed resolved timestamps, widening the conversion window can
only keep the computed `steps` the same or increase it, never decrease. -/
theorem c7_steps_monotone_in_window {w w' : Nat} (h : w ≤ w') (l0 l1 l2 : Option Nat) :
    stepsOf w l0 l1 l2 ≤ stepsOf w' l0 l1 l2 := by
  by_cases h3 :
      (leOpt l0 l1 && leOpt l1 (plusOpt l0 w) && leOpt l1 l2 && leOpt l2 (plusOpt l0 w)) = true
  · have h3' :
        (leOpt l0 l1 && leOpt l1 (plusOpt l0 w') && leOpt l1 l2 && leOpt l2 (plusOpt l0 w')) =
          true := by
      simp only [Bool.and_eq_true] at h3 ⊢
      exact ⟨⟨⟨h3.1.1.1, leOpt_plusOpt_mono h h3.1.1.2⟩, h3.1.2⟩, leOpt_plusOpt_mono h h3.2⟩
    have hR : stepsOf w' l0 l1 l2 = 3 := by unfold stepsOf; rw [if_pos h3']
    have hL := stepsOf_le_three w l0 l1 l2
    omega
  · by_cases h2 : (leOpt l0 l1 && leOpt l1 (plusOpt l0 w)) = true
    · have h2' : (leOpt l0 l1 && leOpt l1 (plusOpt l0 w')) = true := by
        simp only [Bool.and_eq_true] at h2 ⊢
        exact ⟨h2.1, leOpt_plusOpt_mono h h2.2⟩
      have hL : stepsOf w l0 l1 l2 = 2 := by unfold stepsOf; rw [if_neg h3, if_pos h2]
      have hR : 2 ≤ stepsOf w' l0 l1 l2 := by
        by_cases h3' :
            (leOpt l0 l1 && leOpt l1 (plusOpt l0 w') && leOpt l1 l2 &&
              leOpt l2 (plusOpt l0 w')) = true
        · have : stepsOf w' l0 l1 l2 = 3 := by unfold stepsOf; rw [if_pos h3']
          omega
        · have : stepsOf w' l0 l1 l2 = 2 := by unfold stepsOf; rw [if_neg h3', if_pos h2']
          omega
      omega
    · have hL : stepsOf w l0 l1 l2 = 1 := by unfold stepsOf; rw [if_neg h3, if_neg h2]
      have hR := stepsOf_pos w' l0 l1 l2
      omega

/-- Witness for C7: the dual-anchor timestamps at the 14-day window versus
a window one day wider. -/
theorem c7_witness :
    windowSeconds ≤ windowSeconds + 86400 ∧
      stepsOf windowSeconds (some 0) (some 864000) (some 1728000) ≤
        stepsOf (windowSeconds + 86400) (some 0) (some 864000) (some 1728000) :=
  ⟨Nat.le_add_right _ _,
   c7_steps_monotone_in_window (Nat.le_add_right _ _) (some 0) (some 864000) (some 1728000)⟩

/-- C3: a per-step conversion time of an evaluated entrance row is
populated exactly when that step's resolved timestamp is present and at
most the previous step's timestamp plus the window (previous-step anchor),
and it then equals the elapsed seconds between the two timestamps. -/
theorem c3_previous_step_anchor {w : Nat} {events : List Ev} {x : EvalRow}
    (hx : x ∈ evaluated w events) :
    (∀ d, x.step_1_conversion_time = some d ↔
        ∃ t0 t1, x.latest_0 = some t0 ∧ x.latest_1 = some t1 ∧ t1 ≤ t0 + w ∧
          d = (t1 : Int) - (t0 : Int)) ∧
    (∀ d, x.step_2_conversion_time = some d ↔
        ∃ t1 t2, x.latest_1 = some t1 ∧ x.latest_2 = some t2 ∧ t2 ≤ t1 + w ∧
          d = (t2 : Int) - (t1 : Int)) := by
  obtain ⟨hmem, _⟩ := List.mem_filter.mp hx
  obtain ⟨y, _, hxy⟩ := List.mem_map.mp hmem
  subst hxy
  constructor
  · intro d
    show convTime1 w y.latest_0 y.latest_1 = some d ↔
      ∃ t0 t1, y.latest_0 = some t0 ∧ y.latest_1 = some t1 ∧ t1 ≤ t0 + w ∧
        d = (t1 : Int) - (t0 : Int)
    exact convTime1_eq_some
  · intro d
    show convTime2 w y.latest_1 y.latest_2 = some d ↔
      ∃ t1 t2, y.latest_1 = some t1 ∧ y.latest_2 = some t2 ∧ t2 ≤ t1 + w ∧
        d = (t2 : Int) - (t1 : Int)
    exact convTime2_eq_some

/-- Witness for C3 at the three-event scenario. -/
theorem c3_witness :
    evalRowA ∈ evaluated windowSeconds evScenarioA ∧
      ((∀ d, evalRowA.step_1_conversion_time = some d ↔
          ∃ t0 t1, evalRowA.latest_0 = some t0 ∧ evalRowA.latest_1 = some t1 ∧
            t1 ≤ t0 + windowSeconds ∧ d = (t1 : Int) - (t0 : Int)) ∧
       (∀ d, evalRowA.step_2_conversion_time = some d ↔
          ∃ t1 t2, evalRowA.latest_1 = some t1 ∧ evalRowA.latest_2 = some t2 ∧
            t2 ≤ t1 + windowSeconds ∧ d = (t2 : Int) - (t1 : Int))) :=
  ⟨by decide, @c3_previous_step_anchor windowSeconds evScenarioA evalRowA (by decide)⟩

/-- C1: on an ascending event stream, every evaluated entrance row's
`steps` value is the largest `k` in `[1, 3]` such that every step
`i ∈ [1, k-1]` has a present resolved timestamp within the
entrance-anchored window `latest_0 + w`; in particular it is always at
least 1 and at most 3. -/
theorem c1_steps_is_largest_k {w : Nat} {events : List Ev} {x : EvalRow}
    (hsort : sortedLE events) (hx : x ∈ evaluated w events) :
    1 ≤ x.steps ∧ x.steps ≤ 3 ∧
    (∀ i, 1 ≤ i → i < x.steps → stepOK w x i) ∧
    (∀ k, k ≤ 3 → (∀ i, 1 ≤ i → i < k → stepOK w x i) → k ≤ x.steps) := by
  obtain ⟨hmem, h0⟩ := List.mem_filter.mp hx
  obtain ⟨y, hy, hxy⟩ := List.mem_map.mp hmem
  have hinv := resolve_invariants hsort hy
  subst hxy
  have h0' : y.step_0 = true := h0
  have hl0 : y.latest_0 = some y.timestamp := hinv.1 h0'
  have hok1 : ∀ t, y.latest_1 = some t → t ≤ y.timestamp + w → stepOK w (evalRow w y) 1 :=
    fun t ht hle => ⟨t, y.timestamp, hl0, ht, hle⟩
  have hok2 : ∀ t, y.latest_2 = some t → t ≤ y.timestamp + w → stepOK w (evalRow w y) 2 :=
    fun t ht hle => ⟨t, y.timestamp, hl0, ht, hle⟩
  have hnot1 : stepOK w (evalRow w y) 1 → ∃ t, y.latest_1 = some t ∧ t ≤ y.timestamp + w := by
    rintro ⟨t, t0', ht0', hlat, hle⟩
    have heq : y.timestamp = t0' := Option.some.inj (hl0.symm.trans ht0')
    exact ⟨t, hlat, by omega⟩
  have hnot2 : stepOK w (evalRow w y) 2 → ∃ t, y.latest_2 = some t ∧ t ≤ y.timestamp + w := by
    rintro ⟨t, t0', ht0', hlat, hle⟩
    have heq : y.timestamp = t0' := Option.some.inj (hl0.symm.trans ht0')
    exact ⟨t, hlat, by omega⟩
  rcases hl1 : y.latest_1 with _ | t1
  · have hsteps : (evalRow w y).steps = 1 := by
      show stepsOf w y.latest_0 y.latest_1 y.latest_2 = 1
      rw [hl0, hl1]
      unfold stepsOf
      simp [leOpt]
    rw [hsteps]
    refine ⟨Nat.le_refl _, by omega, ?_, ?_⟩
    · intro i hi hilt
      exact absurd hilt (by omega)
    · intro k hk3 hall
      by_contra hgt
      obtain ⟨t, ht, _⟩ := hnot1 (hall 1 (Nat.le_refl _) (by omega))
      rw [hl1] at ht
      exact absurd ht (by simp)
  · by_cases hb1 : t1 ≤ y.timestamp + w
    · have ht01 : y.timestamp ≤ t1 := hinv.2.2.1 t1 hl1
      rcases hl2 : y.latest_2 with _ | t2
      · have hsteps : (evalRow w y).steps = 2 := by
          show stepsOf w y.latest_0 y.latest_1 y.latest_2 = 2
          rw [hl0, hl1, hl2]
          unfold stepsOf
          simp [leOpt, plusOpt, ht01, hb1]
        rw [hsteps]
        refine ⟨by omega, by omega, ?_, ?_⟩
        · intro i hi hilt
          have : i = 1 := by omega
          subst this
          exact hok1 t1 hl1 hb1
        · intro k hk3 hall
          by_contra hgt
          obtain ⟨t, ht, _⟩ := hnot2 (hall 2 (by omega) (by omega))
          rw [hl2] at ht
          exact absurd ht (by simp)
      · have ht12 : t1 ≤ t2 := hinv.2.2.2 t1 t2 hl1 hl2
        by_cases hb2 : t2 ≤ y.timestamp + w
        · have hsteps : (evalRow w y).steps = 3 := by
            show stepsOf w y.latest_0 y.latest_1 y.latest_2 = 3
            rw [hl0, hl1, hl2]
            unfold stepsOf
            simp [leOpt, plusOpt, ht01, hb1, ht12, hb2]
          rw [hsteps]
          refine ⟨by omega, by omega, ?_, fun k hk3 _ => by omega⟩
          intro i hi hilt
          have : i = 1 ∨ i = 2 := by omega
          rcases this with h | h <;> subst h
          · exact hok1 t1 hl1 hb1
          · exact hok2 t2 hl2 hb2
        · have hsteps : (evalRow w y).steps = 2 := by
            show stepsOf w y.latest_0 y.latest_1 y.latest_2 = 2
            rw [hl0, hl1, hl2]
            unfold stepsOf
            simp [leOpt, plusOpt, ht01, hb1, hb2]
          rw [hsteps]
          refine ⟨by omega, by omega, ?_, ?_⟩
          · intro i hi hilt
            have : i = 1 := by omega
            subst this
            exact hok1 t1 hl1 hb1
          · intro k hk3 hall
            by_contra hgt
            obtain ⟨t, ht, htw⟩ := hnot2 (hall 2 (by omega) (by omega))
            rw [hl2] at ht
            have : t = t2 := Option.some.inj ht.symm
            omega
    · have hsteps : (evalRow w y).steps = 1 := by
        show stepsOf w y.latest_0 y.latest_1 y.latest_2 = 1
        rw [hl0, hl1]
        unfold stepsOf
        simp [leOpt, plusOpt, hb1]
      rw [hsteps]
      refine ⟨Nat.le_refl _, by omega, ?_, ?_⟩
      · intro i hi hilt
        exact absurd hilt (by omega)
      · intro k hk3 hall
        by_contra hgt
        obtain ⟨t, ht, htw⟩ := hnot1 (hall 1 (Nat.le_refl _) (by omega))
        rw [hl1] at ht
        have : t = t1 := Option.some.inj ht.symm
        omega

/-- Witness for C1 at the three-event scenario. -/
theorem c1_witness :
    sortedLE evScenarioA ∧ evalRowA ∈ evaluated windowSeconds evScenarioA ∧
      (1 ≤ evalRowA.steps ∧ evalRowA.steps ≤ 3 ∧
       (∀ i, 1 ≤ i → i < evalRowA.steps → stepOK windowSeconds evalRowA i) ∧
       (∀ k, k ≤ 3 → (∀ i, 1 ≤ i → i < k → stepOK windowSeconds evalRowA i) →
         k ≤ evalRowA.steps)) :=
  ⟨by decide, by decide,
   @c1_steps_is_largest_k windowSeconds evScenarioA evalRowA (by decide) (by decide)⟩

theorem listMax_cons_isSome (a : Nat) (l : List Nat) : ∃ s, listMax (a :: l) = some s :=
  ⟨_, rfl⟩

theorem mem_periodSteps {w P : Nat} {a : Actor} {s : Nat} :
    s ∈ periodSteps w P a ↔
      ∃ r, r ∈ evaluated w a.events ∧ toStartOfDay r.timestamp = P ∧ r.steps = s := by
  simp only [periodSteps, List.mem_map, List.mem_filter, decide_eq_true_eq]
  constructor
  · rintro ⟨r, ⟨hr, hp⟩, hs⟩
    exact ⟨r, hr, hp, hs⟩
  · rintro ⟨r, hr, hp, hs⟩
    exact ⟨r, ⟨hr, hp⟩, hs⟩

theorem mem_cohort {w P : Nat} {actors : List Actor} {i s : Nat} :
    (i, s) ∈ cohort w P actors ↔
      ∃ a ∈ actors, a.id = i ∧ listMax (periodSteps w P a) = some s := by
  simp only [cohort, List.mem_filterMap, Option.map_eq_some']
  constructor
  · rintro ⟨a, ha, t, hmax, heq⟩
    obtain ⟨h1, h2⟩ := Prod.mk.injEq .. ▸ heq
    exact ⟨a, ha, h1, h2 ▸ hmax⟩
  · rintro ⟨a, ha, h1, hmax⟩
    exact ⟨a, ha, s, hmax, by rw [h1]⟩

theorem cohort_fst_sublist (w P : Nat) (actors : List Actor) :
    ((cohort w P actors).map Prod.fst).Sublist (actors.map Actor.id) := by
  induction actors with
  | nil => simp [cohort]
  | cons a l ih =>
      cases h : listMax (periodSteps w P a) with
      | none =>
          simp only [cohort, List.filterMap_cons, h, Option.map_none', List.map_cons]
          exact ih.cons _
      | some s =>
          simp only [cohort, List.filterMap_cons, h, Option.map_some', List.map_cons]
          exact ih.cons₂ _

/-- C4: with pairwise distinct actor ids, the aggregation produces at most
one cohort row per actor for the requested period, a row exists exactly
for actors with at least one entrance whose timestamp truncates to that
period, and the row's `steps_completed` is the maximum `steps` over those
entrances. -/
theorem c4_entrance_aggregation {w P : Nat} {actors : List Actor}
    (hids : (actors.map Actor.id).Nodup) :
    ((cohort w P actors).map Prod.fst).Nodup ∧
    (∀ a ∈ actors,
      ((∃ s, (a.id, s) ∈ cohort w P actors) ↔
        ∃ r ∈ evaluated w a.events, toStartOfDay r.timestamp = P)) ∧
    (∀ a ∈ actors, ∀ s, (a.id, s) ∈ cohort w P actors →
      (∃ r ∈ evaluated w a.events, toStartOfDay r.timestamp = P ∧ r.steps = s) ∧
      ∀ r ∈ evaluated w a.events, toStartOfDay r.timestamp = P → r.steps ≤ s) ∧
    (∀ pr ∈ cohort w P actors, ∃ a ∈ actors, a.id = pr.1) := by
  have hinj : ∀ a ∈ actors, ∀ a' ∈ actors, a.id = a'.id → a = a' := by
    intro a ha a' ha' h
    exact List.inj_on_of_nodup_map hids ha ha' h
  refine ⟨(cohort_fst_sublist w P actors).nodup hids, ?_, ?_, ?_⟩
  · intro a ha
    constructor
    · rintro ⟨s, hmem⟩
      obtain ⟨a', ha', hid, hmax⟩ := mem_cohort.mp hmem
      have haa : a' = a := hinj a' ha' a ha hid
      subst haa
      obtain ⟨r, hr, hp, _⟩ := mem_periodSteps.mp (listMax_mem hmax)
      exact ⟨r, hr, hp⟩
    · rintro ⟨r, hr, hp⟩
      have hne : r.steps ∈ periodSteps w P a := mem_periodSteps.mpr ⟨r, hr, hp, rfl⟩
      obtain ⟨b, l, hbl⟩ : ∃ b l, periodSteps w P a = b :: l := by
        cases hps : periodSteps w P a with
        | nil => rw [hps] at hne; exact absurd hne (by simp)
        | cons b l => exact ⟨b, l, rfl⟩
      obtain ⟨s, hs⟩ := listMax_cons_isSome b l
      exact ⟨s, mem_cohort.mpr ⟨a, ha, rfl, by rw [hbl, hs]⟩⟩
  · intro a ha s hmem
    obtain ⟨a', ha', hid, hmax⟩ := mem_cohort.mp hmem
    have haa : a' = a := hinj a' ha' a ha hid
    subst haa
    constructor
    · obtain ⟨r, hr, hp, hs⟩ := mem_periodSteps.mp (listMax_mem hmax)
      exact ⟨r, hr, hp, hs⟩
    · intro r hr hp
      exact listMax_ge hmax (mem_periodSteps.mpr ⟨r, hr, hp, rfl⟩)
  · rintro ⟨i, s⟩ hmem
    obtain ⟨a, ha, hid, _⟩ := mem_cohort.mp hmem
    exact ⟨a, ha, hid⟩

/-- Witness for C4 on a two-actor input. -/
theorem c4_witness :
    (actorsEx.map Actor.id).Nodup ∧
      ((cohort windowSeconds 0 actorsEx).map Prod.fst).Nodup :=
  ⟨by decide, (@c4_entrance_aggregation windowSeconds 0 actorsEx (by decide)).1⟩

/-- C5: the trend selector returns exactly the actors of cohort rows of
the requested period passing the depth predicate, with "at least K" being
`steps_completed ≥ K`, "dropped off in `[lo, hi)`" being
`lo ≤ steps_completed < hi`, and "fully completed" being
`steps_completed ≥ N` for `N = 3` steps. -/
theorem c5_depth_selection :
    (∀ w P dp actors i,
        i ∈ selectActors w P dp actors ↔
          ∃ s, (i, s) ∈ cohort w P actors ∧ depthHolds dp s = true) ∧
    (∀ k s, depthHolds (.atLeast k) s = true ↔ k ≤ s) ∧
    (∀ lo hi s, depthHolds (.range lo hi) s = true ↔ lo ≤ s ∧ s < hi) ∧
    (∀ s, depthHolds fullyCompleted s = true ↔ totalSteps ≤ s) := by
  refine ⟨?_, ?_, ?_, ?_⟩
  · intro w P dp actors i
    constructor
    · intro h
      obtain ⟨x, hx, hxi⟩ := List.mem_map.mp h
      obtain ⟨hxc, hxd⟩ := List.mem_filter.mp hx
      subst hxi
      exact ⟨x.2, hxc, hxd⟩
    · rintro ⟨s, hmem, hd⟩
      exact List.mem_map.mpr ⟨(i, s), List.mem_filter.mpr ⟨hmem, hd⟩, rfl⟩
  · intro k s
    simp [depthHolds]
  · intro lo hi s
    simp [depthHolds]
  · intro s
    simp [fullyCompleted, depthHolds]

/-- C8 counterexample: in `evNoStep1` (an entrance followed only by a
step-2 event) the resolved entrance row has `latest_1` absent while
`latest_2` is present — the null-out `if(less(latest_2, latest_1), NULL,
latest_2)` keeps `latest_2` when `latest_1` is `NULL`, so an absent
`latest[i]` does not make every later `latest[j]` absent. -/
theorem c8_counterexample :
    rowB ∈ resolve (stage0 evNoStep1) ∧ rowB.step_0 = true ∧
      rowB.latest_1 = none ∧ rowB.latest_2 = some 86400 := by decide

/-- C8 amended: an absent `latest_1` does force the depth evaluation to
treat every later step as unreached — `steps` collapses to 1 — even
though `latest_2` itself may remain present in the stored resolved row. -/
theorem c8_amended_depth_truncation {w : Nat} {events : List Ev} {x : EvalRow}
    (hx : x ∈ evaluated w events) (h1 : x.latest_1 = none) : x.steps = 1 := by
  obtain ⟨hmem, _⟩ := List.mem_filter.mp hx
  obtain ⟨y, _, hxy⟩ := List.mem_map.mp hmem
  subst hxy
  have h1' : y.latest_1 = none := h1
  show stepsOf w y.latest_0 y.latest_1 y.latest_2 = 1
  rw [h1']
  unfold stepsOf
  cases y.latest_0 <;> simp [leOpt]

/-- Witness for the amended C8. -/
theorem c8_amended_witness :
    evalRowB ∈ evaluated windowSeconds evNoStep1 ∧ evalRowB.latest_1 = none ∧
      evalRowB.steps = 1 :=
  ⟨by decide, by decide,
   @c8_amended_depth_truncation windowSeconds evNoStep1 evalRowB (by decide) (by decide)⟩

/-- C10: on `evDualAnchor` with the 14-day window, the evaluated entrance
row has `steps = 2` (step 2 missed the entrance-anchored window:
`latest_2 = 1728000 > 1209600 = latest_0 + W`) while its
`step_2_conversion_time` is populated
(`latest_2 = 1728000 ≤ 2073600 = latest_1 + W`): a displayed transition
duration exists for a step not counted as completed. -/
theorem c10_duration_without_completion :
    ∃ r ∈ evaluated windowSeconds evDualAnchor,
      r.steps = 2 ∧ r.step_2_conversion_time = some 864000 ∧
      r.latest_0 = some 0 ∧ r.latest_1 = some 864000 ∧ r.latest_2 = some 1728000 ∧
      plusOpt r.latest_0 windowSeconds = some 1209600 ∧
      plusOpt r.latest_1 windowSeconds = some 2073600 ∧
      1209600 < 1728000 ∧ 1728000 ≤ 2073600 := by decide

/-- C9 counterexample: with two selected persons sharing one
`created_at`, both relative orders satisfy the query's `ORDER BY
created_at DESC LIMIT 101 OFFSET 0` contract — the snapshot has no
secondary sort key, so no deterministic actor-id tie-break exists. -/
theorem c9_counterexample :
    isQueryResult personsEx selEx [⟨1, 5⟩, ⟨2, 5⟩] ∧
    isQueryResult personsEx selEx [⟨2, 5⟩, ⟨1, 5⟩] ∧
    ([⟨1, 5⟩, ⟨2, 5⟩] : List Person) ≠ [⟨2, 5⟩, ⟨1, 5⟩] :=
  ⟨⟨[⟨1, 5⟩, ⟨2, 5⟩], by decide, by decide, rfl⟩,
   ⟨[⟨2, 5⟩, ⟨1, 5⟩], by decide, by decide, rfl⟩,
   by decide⟩

/-- C9 amended: every result satisfying the query contract consists of
joined person rows only, is sorted by `created_at` descending, is capped
at 101 rows (`LIMIT 101 OFFSET 0`), and is a permutation of the full
joined set whenever that set fits the cap; the relative order of equal
`created_at` values is left unspecified. -/
theorem c9_amended_order_and_limit {persons : List Person} {sel : List Nat}
    {out : List Person} (h : isQueryResult persons sel out) :
    out.Sorted createdDesc ∧ out.length ≤ 101 ∧
    (∀ p ∈ out, p ∈ joinedRows persons sel) ∧
    ((joinedRows persons sel).length ≤ 101 → out.Perm (joinedRows persons sel)) := by
  obtain ⟨full, hperm, hsort, hout⟩ := h
  have hout' : out = full.take 101 := hout
  refine ⟨?_, ?_, ?_, ?_⟩
  · rw [hout']
    exact hsort.sublist (List.take_sublist _ _)
  · rw [hout']
    exact List.length_take_le _ _
  · intro p hp
    rw [hout'] at hp
    exact hperm.subset (List.take_subset _ _ hp)
  · intro hlen
    have hfl : full.length ≤ 101 := by rw [hperm.length_eq]; exact hlen
    rw [hout', List.take_of_length_le hfl]
    exact hperm

/-- Witness for the amended C9. -/
theorem c9_amended_witness :
    isQueryResult personsEx selEx [⟨2, 5⟩, ⟨1, 5⟩] ∧
      (([⟨2, 5⟩, ⟨1, 5⟩] : List Person).Sorted createdDesc ∧
       ([⟨2, 5⟩, ⟨1, 5⟩] : List Person).length ≤ 101 ∧
       (∀ p ∈ ([⟨2, 5⟩, ⟨1, 5⟩] : List Person), p ∈ joinedRows personsEx selEx) ∧
       ((joinedRows personsEx selEx).length ≤ 101 →
         ([⟨2, 5⟩, ⟨1, 5⟩] : List Person).Perm (joinedRows personsEx selEx))) :=
  ⟨⟨[⟨2, 5⟩, ⟨1, 5⟩], by decide, by decide, rfl⟩,
   c9_amended_order_and_limit ⟨[⟨2, 5⟩, ⟨1, 5⟩], by decide, by decide, rfl⟩⟩

end FunnelTrends
